import Mathlib

/-!
Verification development for the `andst_staff_recommend` repository.

The backing store is a spreadsheet whose cells are text; we embed the
`records` worksheet (header `date, week, name, type, count`, guaranteed by
`_ensure_worksheet`) as a list of `Row`s of cell strings, and the `targets`
worksheet (`month, type, target`) as a list of `TRow`s.  The functions
`insert_or_update_record`, `delete_record`, `load_all_records` and
`get_target` below are shallow embeddings of the synonymous functions of
`db_gsheets.py`: the Python linear scans over the row list become structural
recursion over the list, Python `str.strip` becomes `pyStrip`, Python
`int(...)` coercion becomes `pyInt`/`toIntOr0`, `datetime.strptime` with the
formats `%Y-%m-%d` / `%Y/%m/%d` becomes `parseDateSep '-'` / `parseDateSep '/'`
(CPython's `_strptime` requires exactly four digits for `%Y` and one or two
digits for `%m` and `%d`, and `datetime` then validates the ranges), and
`datetime.isocalendar().week` becomes `isoWeekNumber`.  Numeric values written
into cells are modelled by their decimal text (`intCell`); digit-grouping
underscores of Python's `int` are not modelled.
-/

/-- Whitespace test used by Python's `str.strip` and `int`; spaces, tabs and
newlines cover every character occurring in this development. -/
def isPySpace (c : Char) : Bool := c.isWhitespace

/-- Strip leading and trailing whitespace from a character list. -/
def stripChars (l : List Char) : List Char :=
  ((l.dropWhile isPySpace).reverse.dropWhile isPySpace).reverse

/-- Model of Python `str.strip()`. -/
def pyStrip (s : String) : String := ⟨stripChars s.data⟩

/-- Numeric value of a decimal digit character. -/
def charDigit (c : Char) : Nat := c.toNat - 48

/-- Value of a big-endian list of digit characters. -/
def charsToNat (l : List Char) : Nat := Nat.ofDigits 10 ((l.map charDigit).reverse)

/-- Model of Python `int(s)` on strings: optional surrounding whitespace,
optional sign, then one or more decimal digits; anything else raises, which we
model as `none`. -/
def pyInt (s : String) : Option Int :=
  match stripChars s.data with
  | [] => none
  | c :: rest =>
    let ds := if c = '-' ∨ c = '+' then rest else c :: rest
    if ds ≠ [] ∧ ds.all Char.isDigit then
      if c = '-' then some (-(charsToNat ds : Int)) else some (charsToNat ds : Int)
    else none

/-- Python `int(x)` with a fallback of `0` on failure, as used by the
`try/except` blocks of `load_all_records`, `insert_or_update_record` and
`get_target` (the `or 0` guards in the source only affect empty cells, which
`pyInt` already maps to `none`). -/
def toIntOr0 (s : String) : Int := (pyInt s).getD 0

/-- Big-endian digit characters of a positive number; the first argument is
fuel, instantiated with the number itself. -/
def natCharsAux : Nat → Nat → List Char
  | _, 0 => []
  | 0, _ + 1 => []
  | f + 1, n + 1 => natCharsAux f ((n + 1) / 10) ++ [Nat.digitChar ((n + 1) % 10)]

/-- Decimal digit characters of a natural number. -/
def natChars (n : Nat) : List Char := if n = 0 then ['0'] else natCharsAux n n

/-- Decimal text of a natural number, as it appears in a spreadsheet cell. -/
def natCell (n : Nat) : String := ⟨natChars n⟩

/-- Decimal text of an integer, as it appears in a spreadsheet cell after the
program writes the number there. -/
def intCell (i : Int) : String :=
  if i < 0 then ⟨'-' :: natChars i.natAbs⟩ else natCell i.toNat

/-- Split a character list at every occurrence of `c`; the result is always
nonempty, mirroring Python's `str.split`. -/
def splitOnChar (c : Char) : List Char → List (List Char)
  | [] => [[]]
  | a :: l =>
    if a = c then [] :: splitOnChar c l
    else
      match splitOnChar c l with
      | [] => [[a]]
      | h :: t => (a :: h) :: t

/-- A calendar date. -/
structure Date where
  year : Nat
  month : Nat
  day : Nat
deriving DecidableEq

/-- Gregorian leap-year test. -/
def isLeap (y : Nat) : Bool := (y % 4 == 0 && y % 100 != 0) || y % 400 == 0

/-- Number of days of month `m` of year `y`. -/
def daysInMonth (y m : Nat) : Nat :=
  if m = 2 then (if isLeap y then 29 else 28)
  else if m = 4 ∨ m = 6 ∨ m = 9 ∨ m = 11 then 30
  else 31

/-- Model of `datetime.strptime(s, "%Y<sep>%m<sep>%d")`: exactly four digits of
year, one or two digits of month and day, with the ranges `datetime` enforces
(year at least 1, month 1–12, day within the month). -/
def parseDateSep (sep : Char) (s : String) : Option Date :=
  match splitOnChar sep s.data with
  | [py, pm, pd] =>
    if py.length == 4 && py.all Char.isDigit &&
       decide (1 ≤ pm.length) && pm.length ≤ 2 && pm.all Char.isDigit &&
       decide (1 ≤ pd.length) && pd.length ≤ 2 && pd.all Char.isDigit then
      let y := charsToNat py
      let m := charsToNat pm
      let d := charsToNat pd
      if decide (1 ≤ y) && decide (1 ≤ m) && m ≤ 12 && decide (1 ≤ d) &&
         d ≤ daysInMonth y m then
        some ⟨y, m, d⟩
      else none
    else none
  | _ => none

/-- The date-parsing loop of `load_all_records`: try `%Y-%m-%d`, then
`%Y/%m/%d`. -/
def parseAny (s : String) : Option Date :=
  match parseDateSep '-' s with
  | some dt => some dt
  | none => parseDateSep '/' s

/-- Left-pad a digit list with zeros to width `k`. -/
def padDigits (k : Nat) (l : List Char) : List Char :=
  List.replicate (k - l.length) '0' ++ l

/-- Model of `strftime("%Y-%m-%d")`: zero-padded year, month and day. -/
def fmtDate (dt : Date) : String :=
  ⟨padDigits 4 (natChars dt.year) ++ '-' ::
    (padDigits 2 (natChars dt.month) ++ '-' :: padDigits 2 (natChars dt.day))⟩

/-- Day-of-year of a date, 1-based. -/
def dayOfYear (dt : Date) : Nat :=
  (List.range (dt.month - 1)).foldl (fun a i => a + daysInMonth dt.year (i + 1)) 0 + dt.day

/-- Days elapsed from 0001-01-01 (= day 1) in the proleptic Gregorian
calendar. -/
def rataDie (dt : Date) : Nat :=
  365 * (dt.year - 1) + (dt.year - 1) / 4 - (dt.year - 1) / 100 + (dt.year - 1) / 400
    + dayOfYear dt

/-- ISO weekday, Monday = 1 .. Sunday = 7 (0001-01-01 is a Monday). -/
def isoDow (dt : Date) : Nat := (rataDie dt - 1) % 7 + 1

/-- Number of ISO weeks of year `y`: 53 when Jan 1 is a Thursday, or a
Wednesday of a leap year; otherwise 52. -/
def weeksInYear (y : Nat) : Nat :=
  if isoDow ⟨y, 1, 1⟩ == 4 || (isLeap y && isoDow ⟨y, 1, 1⟩ == 3) then 53 else 52

/-- Model of Python `date.isocalendar().week`. -/
def isoWeekNumber (dt : Date) : Nat :=
  let w := (dayOfYear dt + 10 - isoDow dt) / 7
  if w = 0 then weeksInYear (dt.year - 1)
  else if weeksInYear dt.year < w then 1
  else w

/-- One data row of the `records` worksheet; each field is the text of the
cell under the corresponding header column. -/
structure Row where
  date : String
  week : String
  name : String
  type : String
  count : String
deriving DecidableEq

/-- One normalized record as returned by `load_all_records`. -/
structure LoadedRec where
  date : String
  week : String
  name : String
  type : String
  count : Int
deriving DecidableEq

/-- The row-matching test of `insert_or_update_record` and `delete_record`:
each cell is stripped and compared for string equality with the argument. -/
def matchesKey (d n t : String) (r : Row) : Bool :=
  pyStrip r.date == d && pyStrip r.name == n && pyStrip r.type == t

/-- The week computation of `insert_or_update_record`: `strptime` the date
with `%Y-%m-%d` and take the ISO week, or the empty string when parsing
raises. -/
def weekStrOf (d : String) : String :=
  match parseDateSep '-' d with
  | some dt => natCell (isoWeekNumber dt)
  | none => ""

/-- The row written by `insert_or_update_record` when it updates the first
matching row `r`: the count cell becomes the coerced old count plus
`add_count`, and the date, week, name and type cells are rewritten from the
arguments. -/
def updatedRow (d n t : String) (c : Int) (r : Row) : Row :=
  ⟨d, weekStrOf d, n, t, intCell (toIntOr0 r.count + c)⟩

/-- Shallow embedding of `db_gsheets.insert_or_update_record`: scan for the
first row whose stripped (date, name, type) cells equal the arguments; update
it in place if found, else append `[date_str, week, name, tp, int(add_count)]`
at the end. -/
def insert_or_update_record (d n t : String) (c : Int) : List Row → List Row
  | [] => [⟨d, weekStrOf d, n, t, intCell c⟩]
  | r :: rs =>
    if matchesKey d n t r then updatedRow d n t c r :: rs
    else r :: insert_or_update_record d n t c rs

/-- Shallow embedding of `db_gsheets.delete_record`: remove the first row
whose stripped cells equal the key and return `true`, else return the table
unchanged with `false`. -/
def delete_record (d n t : String) : List Row → List Row × Bool
  | [] => ([], false)
  | r :: rs =>
    if matchesKey d n t r then (rs, true)
    else
      let p := delete_record d n t rs
      (r :: p.1, p.2)

/-- Normalization of one row inside `load_all_records`: strip date, name and
type; parse the date with `%Y-%m-%d` then `%Y/%m/%d` and re-emit it via
`strftime("%Y-%m-%d")` when parsing succeeds; fill an empty week cell from the
parsed date; coerce the count with fallback 0.  Every row is kept. -/
def normalizeRecord (r : Row) : LoadedRec :=
  let dstr := pyStrip r.date
  match parseAny dstr with
  | some dt =>
    ⟨fmtDate dt,
      if r.week == "" then natCell (isoWeekNumber dt) else r.week,
      pyStrip r.name, pyStrip r.type, toIntOr0 r.count⟩
  | none =>
    ⟨dstr, r.week, pyStrip r.name, pyStrip r.type, toIntOr0 r.count⟩

/-- Shallow embedding of `db_gsheets.load_all_records`. -/
def load_all_records (ts : List Row) : List LoadedRec := ts.map normalizeRecord

/-- One data row of the `targets` worksheet. -/
structure TRow where
  month : String
  type : String
  target : String
deriving DecidableEq

/-- Shallow embedding of `db_gsheets.get_target`: linear scan for the first
row whose stripped (month, type) cells equal the arguments; return its target
coerced to an integer with fallback 0, or 0 when no row matches. -/
def get_target (m t : String) : List TRow → Int
  | [] => 0
  | r :: rs =>
    if pyStrip r.month == m && pyStrip r.type == t then toIntOr0 r.target
    else get_target m t rs

/-- The fixed `type` enumeration of the records table. -/
def validTypes : List String := ["new", "exist", "line", "survey"]

/-- Rejoin the parts produced by `splitOnChar`, used to invert it. -/
def joinParts (c : Char) : List (List Char) → List Char
  | [] => []
  | [p] => p
  | p :: q :: ps => p ++ c :: joinParts c (q :: ps)

/-- The key test on a loaded record. -/
def keyEqRec (d n t : String) (rec : LoadedRec) : Bool :=
  rec.date == d && rec.name == n && rec.type == t

/-- A stored row in canonical form: its date, name and type cells carry no
surrounding whitespace, and its date cell, when the parsing loop of
`load_all_records` accepts it, is already in the canonical zero-padded
`YYYY-MM-DD` spelling (so re-emission leaves it unchanged).  Rows written by
`insert_or_update_record` from canonical inputs have this shape. -/
def canonicalRow (r : Row) : Prop :=
  pyStrip r.date = r.date ∧ pyStrip r.name = r.name ∧ pyStrip r.type = r.type ∧
    ∀ dt, parseAny r.date = some dt → fmtDate dt = r.date

/-- A valid upsert input in canonical form: trimmed fields, a nonempty name,
a type from the fixed enumeration, and a date that parses as `%Y-%m-%d` and is
spelled canonically. -/
def canonicalInput (d n t : String) : Prop :=
  pyStrip d = d ∧ pyStrip n = n ∧ pyStrip t = t ∧ n ≠ "" ∧ t ∈ validTypes ∧
    ∃ dt, parseDateSep '-' d = some dt ∧ fmtDate dt = d

/-- Round half to even on rationals: the semantics of Python's `round`,
idealized to exact arithmetic (the binary-float representation error of the
source is not modelled). -/
def rhEven (x : ℚ) : ℤ :=
  if x - ⌊x⌋ < 1 / 2 then ⌊x⌋
  else if 1 / 2 < x - ⌊x⌋ then ⌊x⌋ + 1
  else if Even ⌊x⌋ then ⌊x⌋ else ⌊x⌋ + 1

/-- Model of Python `round(x, 1)`. -/
def pyRound1 (x : ℚ) : ℚ := (rhEven (10 * x) : ℚ) / 10

/-- The achievement-percentage computation of `render_rate_block`
(staff_recommend_app.py): `0 if target <= 0 else
min(100.0, round(current_total * 100.0 / max(1, target), 1))`. -/
def render_rate_pct (total target : Int) : ℚ :=
  if target ≤ 0 then 0
  else min 100 (pyRound1 ((total : ℚ) * 100 / ((max 1 target : Int) : ℚ)))

/-- Modelled from the spec's words for the refinement comparison of C5:
`achievementRate(total, target)` is `0` if `target ≤ 0`, otherwise
`min(100.0, total/target*100)` rounded to one decimal place. -/
def achievementRate_spec (total target : Int) : ℚ :=
  if target ≤ 0 then 0
  else pyRound1 (min 100 ((total : ℚ) / (target : ℚ) * 100))

theorem digitChar_props {d : Nat} (h : d < 10) :
    (Nat.digitChar d).isDigit = true ∧ Nat.digitChar d ≠ '-' ∧ Nat.digitChar d ≠ '+' ∧
      isPySpace (Nat.digitChar d) = false := by
  interval_cases d <;> exact ⟨by decide, by decide, by decide, by decide⟩

theorem charDigit_digitChar {d : Nat} (h : d < 10) : charDigit (Nat.digitChar d) = d := by
  interval_cases d <;> decide

theorem natCharsAux_eq :
    ∀ f n : Nat, 0 < n → n ≤ f →
      natCharsAux f n = ((Nat.digits 10 n).reverse).map Nat.digitChar := by
  intro f
  induction f with
  | zero => intro n h1 h2; omega
  | succ f ih =>
    intro n h1 h2
    match n, h1 with
    | n + 1, _ =>
      show natCharsAux f ((n + 1) / 10) ++ [Nat.digitChar ((n + 1) % 10)] = _
      rw [Nat.digits_def' (b := 10) (by norm_num) (Nat.succ_pos n)]
      rw [List.reverse_cons, List.map_append]
      by_cases hq : (n + 1) / 10 = 0
      · rw [hq]
        have h0 : natCharsAux f 0 = [] := by cases f <;> rfl
        simp [h0]
      · rw [ih ((n + 1) / 10) (Nat.pos_of_ne_zero hq)
          (by have := Nat.div_lt_self (Nat.succ_pos n) (by norm_num : 1 < 10); omega)]
        rfl

theorem mem_natChars {n : Nat} {c : Char} (h : c ∈ natChars n) :
    c.isDigit = true ∧ c ≠ '-' ∧ c ≠ '+' ∧ isPySpace c = false := by
  by_cases h0 : n = 0
  · subst h0
    have h1 : natChars 0 = ['0'] := rfl
    rw [h1, List.mem_singleton] at h
    subst h
    exact ⟨by decide, by decide, by decide, by decide⟩
  · rw [natChars, if_neg h0, natCharsAux_eq n n (Nat.pos_of_ne_zero h0) le_rfl] at h
    rw [List.mem_map] at h
    obtain ⟨d, hd, rfl⟩ := h
    exact digitChar_props (Nat.digits_lt_base (by norm_num) (List.mem_reverse.mp hd))

theorem natChars_ne_nil (n : Nat) : natChars n ≠ [] := by
  by_cases h0 : n = 0
  · subst h0; decide
  · rw [natChars, if_neg h0, natCharsAux_eq n n (Nat.pos_of_ne_zero h0) le_rfl]
    simp [Nat.digits_ne_nil_iff_ne_zero.mpr h0]

theorem charsToNat_natChars (n : Nat) : charsToNat (natChars n) = n := by
  by_cases h0 : n = 0
  · subst h0; decide
  · rw [natChars, if_neg h0, natCharsAux_eq n n (Nat.pos_of_ne_zero h0) le_rfl]
    unfold charsToNat
    rw [List.map_map]
    have hmap : ((Nat.digits 10 n).reverse).map (charDigit ∘ Nat.digitChar)
        = (Nat.digits 10 n).reverse := by
      rw [List.map_congr_left, List.map_id]
      intro d hd
      exact charDigit_digitChar (Nat.digits_lt_base (by norm_num) (List.mem_reverse.mp hd))
    rw [hmap, List.reverse_reverse, Nat.ofDigits_digits]

theorem stripChars_eq_self {l : List Char} (h : ∀ c ∈ l, isPySpace c = false) :
    stripChars l = l := by
  have h1 : l.dropWhile isPySpace = l := by
    cases l with
    | nil => rfl
    | cons a t => simp [List.dropWhile_cons, h a (by simp)]
  unfold stripChars
  rw [h1]
  have h2 : l.reverse.dropWhile isPySpace = l.reverse := by
    cases hl : l.reverse with
    | nil => rfl
    | cons a t =>
      have ha : a ∈ l := by
        rw [← List.mem_reverse, hl]; simp
      simp [List.dropWhile_cons, h a ha]
  rw [h2, List.reverse_reverse]

theorem pyInt_natCell (n : Nat) : pyInt (natCell n) = some (n : Int) := by
  have hstrip : stripChars (natChars n) = natChars n :=
    stripChars_eq_self (fun c hc => (mem_natChars hc).2.2.2)
  have hdata : (natCell n).data = natChars n := rfl
  unfold pyInt
  rw [hdata, hstrip]
  obtain ⟨c, rest, hcr⟩ : ∃ c rest, natChars n = c :: rest := by
    cases hn : natChars n with
    | nil => exact absurd hn (natChars_ne_nil n)
    | cons c rest => exact ⟨c, rest, rfl⟩
  rw [hcr]
  have hc : c ∈ natChars n := by rw [hcr]; simp
  have hnotsign : ¬(c = '-' ∨ c = '+') := by
    rintro (h | h) <;> [exact (mem_natChars hc).2.1 h; exact (mem_natChars hc).2.2.1 h]
  simp only [hnotsign, if_false]
  have hall : (c :: rest).all Char.isDigit = true := by
    rw [List.all_eq_true]
    intro x hx
    have : x ∈ natChars n := by rw [hcr]; exact hx
    exact (mem_natChars this).1
  have hcond : ((c :: rest) ≠ [] ∧ (c :: rest).all Char.isDigit) := ⟨by simp, hall⟩
  rw [if_pos hcond, if_neg (fun h => (mem_natChars hc).2.1 h)]
  rw [← hcr, charsToNat_natChars]

theorem pyInt_intCell (i : Int) : pyInt (intCell i) = some i := by
  by_cases hi : i < 0
  · have hdata : (intCell i).data = '-' :: natChars i.natAbs := by
      unfold intCell
      rw [if_pos hi]
    have hspace : ∀ c ∈ '-' :: natChars i.natAbs, isPySpace c = false := by
      intro c hc
      rcases List.mem_cons.mp hc with h | h
      · subst h; decide
      · exact (mem_natChars h).2.2.2
    have hall : (natChars i.natAbs).all Char.isDigit = true := by
      rw [List.all_eq_true]
      intro x hx
      exact (mem_natChars hx).1
    unfold pyInt
    rw [hdata, stripChars_eq_self hspace]
    simp [hall, natChars_ne_nil i.natAbs, charsToNat_natChars, abs_of_neg hi]
  · unfold intCell
    rw [if_neg hi, pyInt_natCell]
    congr 1
    omega

theorem toIntOr0_intCell (i : Int) : toIntOr0 (intCell i) = i := by
  rw [toIntOr0, pyInt_intCell]
  rfl

/-! ### Splitting lemmas -/

theorem splitOnChar_ne_nil (c : Char) : ∀ l : List Char, splitOnChar c l ≠ [] := by
  intro l
  cases l with
  | nil => simp [splitOnChar]
  | cons a t =>
    unfold splitOnChar
    by_cases h : a = c
    · simp [h]
    · rw [if_neg h]
      cases splitOnChar c t <;> simp

theorem joinParts_splitOnChar (c : Char) : ∀ l : List Char, joinParts c (splitOnChar c l) = l := by
  intro l
  induction l with
  | nil => rfl
  | cons a t ih =>
    unfold splitOnChar
    by_cases h : a = c
    · rw [if_pos h]
      cases hsp : splitOnChar c t with
      | nil => exact absurd hsp (splitOnChar_ne_nil c t)
      | cons p ps =>
        rw [hsp] at ih
        show [] ++ c :: joinParts c (p :: ps) = a :: t
        rw [ih, h]
        rfl
    · rw [if_neg h]
      cases hsp : splitOnChar c t with
      | nil => exact absurd hsp (splitOnChar_ne_nil c t)
      | cons p ps =>
        rw [hsp] at ih
        cases ps with
        | nil =>
          show a :: p = a :: t
          rw [show joinParts c [p] = p from rfl] at ih
          rw [ih]
        | cons q qs =>
          show (a :: p) ++ c :: joinParts c (q :: qs) = a :: t
          rw [show joinParts c (p :: q :: qs) = p ++ c :: joinParts c (q :: qs) from rfl] at ih
          simp only [List.cons_append, ih]

theorem not_mem_of_mem_splitOnChar (c : Char) :
    ∀ (l : List Char) (p : List Char), p ∈ splitOnChar c l → c ∉ p := by
  intro l
  induction l with
  | nil =>
    intro p hp
    simp [splitOnChar] at hp
    subst hp
    simp
  | cons a t ih =>
    intro p hp
    unfold splitOnChar at hp
    by_cases h : a = c
    · rw [if_pos h] at hp
      rcases List.mem_cons.mp hp with h1 | h1
      · subst h1; simp
      · exact ih p h1
    · rw [if_neg h] at hp
      cases hsp : splitOnChar c t with
      | nil => exact absurd hsp (splitOnChar_ne_nil c t)
      | cons q qs =>
        rw [hsp] at hp
        rcases List.mem_cons.mp hp with h1 | h1
        · subst h1
          intro hmem
          rcases List.mem_cons.mp hmem with h2 | h2
          · exact h h2.symm
          · exact ih q (by rw [hsp]; simp) h2
        · exact ih p (by rw [hsp]; simp [h1])

theorem splitOnChar_of_not_mem (c : Char) :
    ∀ l : List Char, c ∉ l → splitOnChar c l = [l] := by
  intro l
  induction l with
  | nil => intro _; rfl
  | cons a t ih =>
    intro h
    have hac : ¬a = c := fun hh => h (by rw [hh]; simp)
    have hct : c ∉ t := fun hh => h (List.mem_cons_of_mem a hh)
    unfold splitOnChar
    rw [if_neg hac, ih hct]

theorem parse_slash_imp_dash_none {s : String} {dt : Date}
    (h : parseDateSep '/' s = some dt) : parseDateSep '-' s = none := by
  unfold parseDateSep at h
  split at h
  case h_2 => exact absurd h (by simp)
  case h_1 py pm pd hsp =>
    split at h
    case isFalse => exact absurd h (by simp)
    case isTrue hcond =>
      simp only [Bool.and_eq_true, beq_iff_eq, decide_eq_true_eq] at hcond
      have hjoin := joinParts_splitOnChar '/' s.data
      rw [hsp] at hjoin
      have hshape : s.data = py ++ '/' :: (pm ++ '/' :: pd) := by
        rw [← hjoin]
        rfl
      have hdigits : ∀ x ∈ s.data, x.isDigit = true ∨ x = '/' := by
        intro x hx
        rw [hshape] at hx
        rcases List.mem_append.mp hx with h1 | h1
        · exact Or.inl (List.all_eq_true.mp hcond.1.1.1.1.1.1.2 x h1)
        · rcases List.mem_cons.mp h1 with h2 | h2
          · exact Or.inr h2
          · rcases List.mem_append.mp h2 with h3 | h3
            · exact Or.inl (List.all_eq_true.mp hcond.1.1.1.2 x h3)
            · rcases List.mem_cons.mp h3 with h4 | h4
              · exact Or.inr h4
              · exact Or.inl (List.all_eq_true.mp hcond.2 x h4)
      have hnd : ('-' : Char) ∉ s.data := by
        intro hmem
        rcases hdigits '-' hmem with h1 | h1
        · exact absurd h1 (by decide)
        · exact absurd h1 (by decide)
      unfold parseDateSep
      rw [splitOnChar_of_not_mem '-' s.data hnd]

/-! ### Canonical-form lemmas -/

theorem normalizeRecord_key_of_canonical {r : Row} (h : canonicalRow r) :
    (normalizeRecord r).date = r.date ∧ (normalizeRecord r).name = r.name ∧
      (normalizeRecord r).type = r.type := by
  obtain ⟨hd, hn, ht, hcanon⟩ := h
  unfold normalizeRecord
  rw [hd]
  cases hp : parseAny r.date with
  | some dt => simp [hp, hcanon dt hp, hn, ht]
  | none => simp [hp, hd, hn, ht]

theorem keyEqRec_normalize_of_canonical {r : Row} (h : canonicalRow r) (d n t : String) :
    keyEqRec d n t (normalizeRecord r) = matchesKey d n t r := by
  have hk := normalizeRecord_key_of_canonical h
  obtain ⟨hd, hn, ht, _⟩ := h
  unfold keyEqRec matchesKey
  rw [hk.1, hk.2.1, hk.2.2, hd, hn, ht]

theorem normalize_written_row {d n t : String} (h : canonicalInput d n t)
    (w : String) (c : Int) :
    (normalizeRecord ⟨d, w, n, t, intCell c⟩).date = d ∧
      (normalizeRecord ⟨d, w, n, t, intCell c⟩).name = n ∧
      (normalizeRecord ⟨d, w, n, t, intCell c⟩).type = t ∧
      (normalizeRecord ⟨d, w, n, t, intCell c⟩).count = c := by
  obtain ⟨hd, hn, ht, _, _, dt, hp, hf⟩ := h
  have hpa : parseAny (pyStrip d) = some dt := by
    rw [hd]
    unfold parseAny
    rw [hp]
  unfold normalizeRecord
  simp only [hpa]
  exact ⟨hf, hn, ht, toIntOr0_intCell c⟩

theorem keyEqRec_written_row {d n t : String} (h : canonicalInput d n t)
    (w : String) (c : Int) :
    keyEqRec d n t (normalizeRecord ⟨d, w, n, t, intCell c⟩) = true := by
  obtain ⟨h1, h2, h3, h4⟩ := normalize_written_row h w c
  unfold keyEqRec
  rw [h1, h2, h3]
  simp

/-! ### Store-scan lemmas -/

theorem upsert_no_match (d n t : String) (c : Int) :
    ∀ ts : List Row, ts.countP (matchesKey d n t) = 0 →
      insert_or_update_record d n t c ts = ts ++ [⟨d, weekStrOf d, n, t, intCell c⟩] := by
  intro ts
  induction ts with
  | nil => intro _; rfl
  | cons r rs ih =>
    intro h
    rw [List.countP_cons] at h
    have hr : matchesKey d n t r = false := by
      cases hm : matchesKey d n t r
      · rfl
      · rw [hm] at h; simp at h
    rw [hr] at h
    simp only [if_neg (by simp : ¬(false = true)), Nat.add_zero] at h
    show (if matchesKey d n t r then _ else r :: insert_or_update_record d n t c rs) = _
    rw [hr]
    simp [ih h]

theorem delete_no_match (d n t : String) :
    ∀ ts : List Row, ts.countP (matchesKey d n t) = 0 →
      delete_record d n t ts = (ts, false) := by
  intro ts
  induction ts with
  | nil => intro _; rfl
  | cons r rs ih =>
    intro h
    rw [List.countP_cons] at h
    have hr : matchesKey d n t r = false := by
      cases hm : matchesKey d n t r
      · rfl
      · rw [hm] at h; simp at h
    rw [hr] at h
    simp only [if_neg (by simp : ¬(false = true)), Nat.add_zero] at h
    show (if matchesKey d n t r then _ else _) = _
    rw [hr]
    simp [delete_record, ih h]

theorem exists_first_match (d n t : String) :
    ∀ ts : List Row, 0 < ts.countP (matchesKey d n t) →
      ∃ pre r post, ts = pre ++ r :: post ∧
        (∀ x ∈ pre, matchesKey d n t x = false) ∧ matchesKey d n t r = true ∧
        (∀ c : Int,
          insert_or_update_record d n t c ts = pre ++ updatedRow d n t c r :: post) ∧
        delete_record d n t ts = (pre ++ post, true) := by
  intro ts
  induction ts with
  | nil => intro h; simp [List.countP_nil] at h
  | cons x rs ih =>
    intro h
    cases hm : matchesKey d n t x with
    | true =>
      refine ⟨[], x, rs, rfl, by simp, hm, fun c => ?_, ?_⟩
      · show (if matchesKey d n t x then updatedRow d n t c x :: rs else _) = _
        rw [hm]
        simp
      · show (if matchesKey d n t x then (rs, true) else _) = _
        rw [hm]
        simp
    | false =>
      have h' : 0 < rs.countP (matchesKey d n t) := by
        rw [List.countP_cons, hm] at h
        simpa using h
      obtain ⟨pre, r, post, heq, hpre, hr, hup, hdel⟩ := ih h'
      refine ⟨x :: pre, r, post, by rw [heq]; rfl, ?_, hr, fun c => ?_, ?_⟩
      · intro z hz
        rcases List.mem_cons.mp hz with h1 | h1
        · rw [h1]; exact hm
        · exact hpre z h1
      · show (if matchesKey d n t x then _ else x :: insert_or_update_record d n t c rs) = _
        rw [hm]
        simp [hup c]
      · show (if matchesKey d n t x then _
            else ((delete_record d n t rs).1.cons x, (delete_record d n t rs).2)) = _
        rw [hm]
        simp [hdel]

theorem filter_map_eq_nil {α β : Type} (p : β → Bool) (f : α → β) :
    ∀ l : List α, (∀ r ∈ l, p (f r) = false) → (l.map f).filter p = [] := by
  intro l
  induction l with
  | nil => intro _; rfl
  | cons x rs ih =>
    intro h
    simp only [List.map_cons, List.filter_cons, h x (by simp)]
    exact ih fun r hr => h r (by simp [hr])

/-! ### Claim C2 -/

/-- C2, counterexample: `insert_or_update_record` performs no validation.  A
call whose date does not parse, whose name is empty, and whose type is outside
the enumeration does not fail: it appends the row (with an empty week cell)
instead of raising a `ValidationError` — no such error exists in the code. -/
theorem claim2_cex :
    insert_or_update_record "not-a-date" "" "bogus" 5 []
      = [⟨"not-a-date", "", "", "bogus", "5"⟩] := by decide

/-- C2, amended: a precondition-violating call to `insert_or_update_record`
(unparseable date, empty trimmed name, or unrecognized type) does not fail;
when no row matches the key it appends the submitted row unchanged, and an
unparseable date is stored with an empty week cell. -/
theorem claim2_amended (d n t : String) (c : Int) (ts : List Row)
    (hbad : parseDateSep '-' d = none ∨ pyStrip n = "" ∨ t ∉ validTypes)
    (hnomatch : ts.countP (matchesKey d n t) = 0) :
    insert_or_update_record d n t c ts = ts ++ [⟨d, weekStrOf d, n, t, intCell c⟩] ∧
      (parseDateSep '-' d = none → weekStrOf d = "") := by
  refine ⟨upsert_no_match d n t c ts hnomatch, fun hnone => ?_⟩
  unfold weekStrOf
  rw [hnone]

/-- C2, witness for the amended claim at a concrete violating input. -/
theorem claim2_witness :
    insert_or_update_record "2025-13-40" "x" "new" 2 []
        = [⟨"2025-13-40", "", "x", "new", "2"⟩] ∧ weekStrOf "2025-13-40" = "" := by
  have h := claim2_amended "2025-13-40" "x" "new" 2 []
    (Or.inl (by decide)) (by decide)
  refine ⟨?_, h.2 (by decide)⟩
  rw [h.1]
  decide

/-! ### Claim C3 -/

/-- C3, counterexample: a row whose date cell is missing (empty) is not
dropped by `load_all_records`; it is returned with an empty date field. -/
theorem claim3_cex :
    (load_all_records [⟨"", "", "A", "new", "5"⟩]).length = 1 ∧
      (load_all_records [⟨"", "", "A", "new", "5"⟩]).map LoadedRec.date = [""] := by
  exact ⟨by decide, by decide⟩

/-- C3, amended: `load_all_records` keeps every backing row (rows with
missing date/name/type are returned with empty fields, not dropped), and the
count field of each returned record is an integer, with malformed or missing
count cells coerced to 0. -/
theorem claim3_amended (ts : List Row) :
    (load_all_records ts).length = ts.length ∧
      ∀ r ∈ ts, pyInt r.count = none → (normalizeRecord r).count = 0 := by
  constructor
  · simp [load_all_records]
  · intro r _ hbad
    unfold normalizeRecord
    cases hp : parseAny (pyStrip r.date) <;> simp [hp, toIntOr0, hbad]

/-- C3, witness for the amended claim at a concrete table. -/
theorem claim3_witness :
    (load_all_records [⟨"zzz", "", "A", "new", "abc"⟩]).length = 1 ∧
      (normalizeRecord ⟨"zzz", "", "A", "new", "abc"⟩).count = 0 := by
  have h := claim3_amended [⟨"zzz", "", "A", "new", "abc"⟩]
  exact ⟨h.1, h.2 ⟨"zzz", "", "A", "new", "abc"⟩ (by simp) (by decide)⟩

/-! ### Claim C6 -/

/-- C6, counterexample: the week stored by `insert_or_update_record` for
2025-08-12 is the bare numeral `"33"`, not the `"<n>w"`-formatted `"33w"` the
claim asserts. -/
theorem claim6_cex :
    (insert_or_update_record "2025-08-12" "A" "new" 1 []).map Row.week = ["33"] ∧
      ("33" : String) ≠ "33w" := by
  exact ⟨by decide, by decide⟩

/-- C6, amended: for every write through `insert_or_update_record` with a
parseable date, every row the call writes (appended or updated — every result
row not already in the table) stores in its week cell the bare decimal ISO
week number of the date, recomputed from the date argument; the function takes
no week from callers. -/
theorem claim6_amended (d n t : String) (c : Int) (ts : List Row) (dt : Date)
    (hparse : parseDateSep '-' d = some dt) :
    ∀ r ∈ insert_or_update_record d n t c ts,
      r ∈ ts ∨ r.week = natCell (isoWeekNumber dt) := by
  have hweek : weekStrOf d = natCell (isoWeekNumber dt) := by
    unfold weekStrOf
    rw [hparse]
  induction ts with
  | nil =>
    intro r hr
    simp only [insert_or_update_record, List.mem_singleton] at hr
    rw [hr]
    exact Or.inr hweek
  | cons x rs ih =>
    intro r hr
    show r ∈ x :: rs ∨ _
    unfold insert_or_update_record at hr
    cases hm : matchesKey d n t x with
    | true =>
      rw [hm] at hr
      simp only [if_pos rfl] at hr
      rcases List.mem_cons.mp hr with h1 | h1
      · rw [h1]
        exact Or.inr hweek
      · exact Or.inl (List.mem_cons_of_mem x h1)
    | false =>
      rw [hm] at hr
      simp only [Bool.false_eq_true, if_false] at hr
      rcases List.mem_cons.mp hr with h1 | h1
      · rw [h1]
        exact Or.inl (List.mem_cons_self x rs)
      · rcases ih r h1 with h2 | h2
        · exact Or.inl (List.mem_cons_of_mem x h2)
        · exact Or.inr h2

/-- C6, witness for the amended claim: the single row written on an empty
table carries week `"33"` for 2025-08-12. -/
theorem claim6_witness :
    (⟨"2025-08-12", "33", "A", "new", "1"⟩ : Row)
        ∈ insert_or_update_record "2025-08-12" "A" "new" 1 [] ∧
      ((⟨"2025-08-12", "33", "A", "new", "1"⟩ : Row) ∈ ([] : List Row) ∨
        (⟨"2025-08-12", "33", "A", "new", "1"⟩ : Row).week
          = natCell (isoWeekNumber ⟨2025, 8, 12⟩)) := by
  refine ⟨by decide, ?_⟩
  exact claim6_amended "2025-08-12" "A" "new" 1 [] ⟨2025, 8, 12⟩ (by decide)
    ⟨"2025-08-12", "33", "A", "new", "1"⟩ (by decide)

/-! ### Claim C9 -/

/-- C9, confirmed: when the first row matching (month, type) has a missing or
unparseable target cell, `get_target` returns 0 instead of raising; and when
no row matches it also returns 0, so absence and unreadability are
indistinguishable to the caller. -/
theorem claim9_get_target (m t : String) (ts : List TRow) :
    (∀ r, ts.find? (fun x => pyStrip x.month == m && pyStrip x.type == t) = some r →
        pyInt r.target = none → get_target m t ts = 0) ∧
      (ts.find? (fun x => pyStrip x.month == m && pyStrip x.type == t) = none →
        get_target m t ts = 0) := by
  induction ts with
  | nil => exact ⟨fun r hr => by simp at hr, fun _ => rfl⟩
  | cons x rs ih =>
    constructor
    · intro r hr hbad
      show (if pyStrip x.month == m && pyStrip x.type == t then toIntOr0 x.target
          else get_target m t rs) = 0
      by_cases hm : (pyStrip x.month == m && pyStrip x.type == t) = true
      · rw [List.find?_cons_of_pos rs hm] at hr
        have hxr : x = r := by injection hr
        rw [if_pos hm, hxr, toIntOr0, hbad]
        rfl
      · rw [List.find?_cons_of_neg rs hm] at hr
        rw [if_neg hm]
        exact ih.1 r hr hbad
    · intro hn
      show (if pyStrip x.month == m && pyStrip x.type == t then toIntOr0 x.target
          else get_target m t rs) = 0
      by_cases hm : (pyStrip x.month == m && pyStrip x.type == t) = true
      · rw [List.find?_cons_of_pos rs hm] at hn
        exact absurd hn (by simp)
      · rw [List.find?_cons_of_neg rs hm] at hn
        rw [if_neg hm]
        exact ih.2 hn

/-- C9, witness: a matching row with an unreadable target yields 0, and a
table with no matching row yields 0. -/
theorem claim9_witness :
    get_target "2025-10" "app" [⟨"2025-10", "app", "abc"⟩] = 0 ∧
      get_target "2025-10" "survey" [⟨"2025-10", "app", "12"⟩] = 0 := by
  constructor
  · exact (claim9_get_target "2025-10" "app" [⟨"2025-10", "app", "abc"⟩]).1
      ⟨"2025-10", "app", "abc"⟩ (by decide) (by decide)
  · exact (claim9_get_target "2025-10" "survey" [⟨"2025-10", "app", "12"⟩]).2 (by decide)

/-! ### Claim C10 -/

/-- C10, confirmed: on a table that already violates the uniqueness invariant
(two or more rows match the key), `insert_or_update_record` rewrites only the
first matching row in sheet order and `delete_record` removes only the first
matching row; the prefix before it and everything after it — including the
remaining duplicates — are returned unchanged. -/
theorem claim10_frame (d n t : String) (c : Int) (ts : List Row)
    (hdup : 2 ≤ ts.countP (matchesKey d n t)) :
    ∃ pre r post, ts = pre ++ r :: post ∧
      (∀ x ∈ pre, matchesKey d n t x = false) ∧ matchesKey d n t r = true ∧
      insert_or_update_record d n t c ts = pre ++ updatedRow d n t c r :: post ∧
      delete_record d n t ts = (pre ++ post, true) := by
  obtain ⟨pre, r, post, h1, h2, h3, h4, h5⟩ :=
    exists_first_match d n t ts (by omega)
  exact ⟨pre, r, post, h1, h2, h3, h4 c, h5⟩

/-- C10, witness at a table with two duplicate rows of the key. -/
theorem claim10_witness :
    2 ≤ ([⟨"2025-08-12", "33", "A", "new", "1"⟩,
          ⟨"2025-08-12", "33", "A", "new", "2"⟩] : List Row).countP
        (matchesKey "2025-08-12" "A" "new") ∧
      ∃ pre r post,
        ([⟨"2025-08-12", "33", "A", "new", "1"⟩,
          ⟨"2025-08-12", "33", "A", "new", "2"⟩] : List Row) = pre ++ r :: post ∧
        (∀ x ∈ pre, matchesKey "2025-08-12" "A" "new" x = false) ∧
        matchesKey "2025-08-12" "A" "new" r = true ∧
        insert_or_update_record "2025-08-12" "A" "new" 4
            [⟨"2025-08-12", "33", "A", "new", "1"⟩,
             ⟨"2025-08-12", "33", "A", "new", "2"⟩]
          = pre ++ updatedRow "2025-08-12" "A" "new" 4 r :: post ∧
        delete_record "2025-08-12" "A" "new"
            [⟨"2025-08-12", "33", "A", "new", "1"⟩,
             ⟨"2025-08-12", "33", "A", "new", "2"⟩]
          = (pre ++ post, true) := by
  refine ⟨by decide, ?_⟩
  exact claim10_frame "2025-08-12" "A" "new" 4
    [⟨"2025-08-12", "33", "A", "new", "1"⟩, ⟨"2025-08-12", "33", "A", "new", "2"⟩]
    (by decide)

/-! ### Claim C4 -/

/-- C4, counterexample: the claim's second half fails.  The table holds one
row exactly equal to the key (2025-08-12, A, new) and one slash-spelled
duplicate (2025/08/12, A, new).  Exactly one row carries the key (under the
store's own trimmed comparison — the slash row differs), `delete_record`
returns `true`, yet the key is still present in the next `load_all_records`,
because the read path normalizes the surviving slash date to 2025-08-12. -/
theorem claim4_cex :
    ([⟨"2025-08-12", "", "A", "new", "1"⟩,
      ⟨"2025/08/12", "", "A", "new", "2"⟩] : List Row).countP
        (matchesKey "2025-08-12" "A" "new") = 1 ∧
      (delete_record "2025-08-12" "A" "new"
          [⟨"2025-08-12", "", "A", "new", "1"⟩,
           ⟨"2025/08/12", "", "A", "new", "2"⟩]).2 = true ∧
      ((load_all_records (delete_record "2025-08-12" "A" "new"
            [⟨"2025-08-12", "", "A", "new", "1"⟩,
             ⟨"2025/08/12", "", "A", "new", "2"⟩]).1).countP
          (keyEqRec "2025-08-12" "A" "new")) = 1 := by
  exact ⟨by decide, by decide, by decide⟩

/-- C4, amended: with "a row with that key" read as the store's trimmed-field
comparison, (i) when no row matches, `delete_record` returns `false` and the
table — hence the result of `load_all_records` — is unchanged; (ii) when
exactly one row matches and no other row normalizes to the key on the read
path, `delete_record` returns `true` and the key is absent from the next
`load_all_records`. -/
theorem claim4_amended (d n t : String) (ts : List Row) :
    (ts.countP (matchesKey d n t) = 0 → delete_record d n t ts = (ts, false)) ∧
      (ts.countP (matchesKey d n t) = 1 →
        (∀ r ∈ ts, matchesKey d n t r = false →
          keyEqRec d n t (normalizeRecord r) = false) →
        (delete_record d n t ts).2 = true ∧
          (load_all_records (delete_record d n t ts).1).countP (keyEqRec d n t) = 0) := by
  refine ⟨delete_no_match d n t ts, fun hone hother => ?_⟩
  obtain ⟨pre, r, post, heq, hpre, hr, _, hdel⟩ :=
    exists_first_match d n t ts (by omega)
  rw [hdel]
  refine ⟨rfl, ?_⟩
  have hcount : (pre ++ post).countP (matchesKey d n t) = 0 := by
    rw [heq, List.countP_append, List.countP_cons, hr] at hone
    simp only [eq_self_iff_true, if_true] at hone
    rw [List.countP_append]
    have hpre0 : pre.countP (matchesKey d n t) = 0 :=
      List.countP_eq_zero.mpr fun x hx => by rw [hpre x hx]; simp
    omega
  unfold load_all_records
  rw [List.countP_map, List.countP_eq_zero]
  intro x hx
  have hxts : x ∈ ts := by
    rw [heq]
    rcases List.mem_append.mp hx with h1 | h1
    · exact List.mem_append.mpr (Or.inl h1)
    · exact List.mem_append.mpr (Or.inr (List.mem_cons_of_mem r h1))
  have hxno : matchesKey d n t x = false := by
    have := List.countP_eq_zero.mp hcount x hx
    cases hm : matchesKey d n t x
    · rfl
    · exact absurd hm this
  have := hother x hxts hxno
  simp only [Function.comp_apply, this]
  simp

/-- C4, witness for the amended claim: both halves at concrete tables. -/
theorem claim4_witness :
    delete_record "2025-08-12" "A" "new" [⟨"2025-08-13", "33", "B", "new", "2"⟩]
        = ([⟨"2025-08-13", "33", "B", "new", "2"⟩], false) ∧
      (delete_record "2025-08-12" "A" "new"
          [⟨"2025-08-12", "33", "A", "new", "1"⟩,
           ⟨"2025-08-13", "33", "B", "new", "2"⟩]).2 = true ∧
      (load_all_records (delete_record "2025-08-12" "A" "new"
          [⟨"2025-08-12", "33", "A", "new", "1"⟩,
           ⟨"2025-08-13", "33", "B", "new", "2"⟩]).1).countP
        (keyEqRec "2025-08-12" "A" "new") = 0 := by
  refine ⟨(claim4_amended "2025-08-12" "A" "new"
    [⟨"2025-08-13", "33", "B", "new", "2"⟩]).1 (by decide), ?_⟩
  exact (claim4_amended "2025-08-12" "A" "new"
    [⟨"2025-08-12", "33", "A", "new", "1"⟩, ⟨"2025-08-13", "33", "B", "new", "2"⟩]).2
    (by decide) (by decide)

/-! ### Claim C1 -/

/-- C1, counterexample: the table holds a single row — so at most one row per
key — whose date is the slash spelling 2025/08/12 of the submitted date.  The
write path compares raw strings, finds no match and appends; the read path
normalizes both spellings to 2025-08-12, so `load_all_records` returns two
records with the submitted key instead of exactly one. -/
theorem claim1_cex :
    ((load_all_records (insert_or_update_record "2025-08-12" "A" "new" 1
          [⟨"2025/08/12", "", "A", "new", "2"⟩])).filter
        (keyEqRec "2025-08-12" "A" "new")).length = 2 := by decide

/-- C1, amended: restricted to canonical data — input key with trimmed fields
and a canonically spelled `%Y-%m-%d` date, table rows trim-fixed with dates
that are canonical whenever the read path accepts them, and at most one row
matching the key — `insert_or_update_record` followed by `load_all_records`
yields exactly one record with the submitted key, whose count is the matched
row's coerced count plus the submitted count when a row was present, and the
submitted count when it was absent. -/
theorem claim1_amended (d n t : String) (c : Int) (ts : List Row)
    (hin : canonicalInput d n t) (hrows : ∀ r ∈ ts, canonicalRow r)
    (huniq : ts.countP (matchesKey d n t) ≤ 1) :
    ((load_all_records (insert_or_update_record d n t c ts)).filter
        (keyEqRec d n t)).map LoadedRec.count
      = [match ts.find? (matchesKey d n t) with
         | some r => toIntOr0 r.count + c
         | none => c] := by
  induction ts with
  | nil =>
    have hk := keyEqRec_written_row hin (weekStrOf d) c
    have hw := normalize_written_row hin (weekStrOf d) c
    show ((load_all_records [⟨d, weekStrOf d, n, t, intCell c⟩]).filter
        (keyEqRec d n t)).map LoadedRec.count = [c]
    unfold load_all_records
    rw [List.map_cons, List.map_nil, List.filter_cons, if_pos hk,
      List.filter_nil, List.map_cons, List.map_nil, hw.2.2.2]
  | cons x rs ih =>
    have hxcanon : canonicalRow x := hrows x (List.mem_cons_self x rs)
    cases hm : matchesKey d n t x with
    | true =>
      have hrs0 : rs.countP (matchesKey d n t) = 0 := by
        rw [List.countP_cons, hm] at huniq
        simp only [eq_self_iff_true, if_true] at huniq
        omega
      have hfind : (x :: rs).find? (matchesKey d n t) = some x :=
        List.find?_cons_of_pos rs hm
      rw [hfind]
      rw [show insert_or_update_record d n t c (x :: rs)
          = if matchesKey d n t x then updatedRow d n t c x :: rs
            else x :: insert_or_update_record d n t c rs from rfl, if_pos hm]
      rw [show updatedRow d n t c x
          = ⟨d, weekStrOf d, n, t, intCell (toIntOr0 x.count + c)⟩ from rfl]
      have hk := keyEqRec_written_row hin (weekStrOf d) (toIntOr0 x.count + c)
      have hw := normalize_written_row hin (weekStrOf d) (toIntOr0 x.count + c)
      unfold load_all_records
      rw [List.map_cons, List.filter_cons, if_pos hk]
      have hdrop : (rs.map normalizeRecord).filter (keyEqRec d n t) = [] := by
        apply filter_map_eq_nil
        intro r hr
        have hcanon := hrows r (List.mem_cons_of_mem x hr)
        rw [keyEqRec_normalize_of_canonical hcanon]
        have hnr := List.countP_eq_zero.mp hrs0 r hr
        cases hmm : matchesKey d n t r
        · rfl
        · exact absurd hmm hnr
      rw [hdrop, List.map_cons, List.map_nil, hw.2.2.2]
    | false =>
      have hfind : (x :: rs).find? (matchesKey d n t) = rs.find? (matchesKey d n t) :=
        List.find?_cons_of_neg rs (by rw [hm]; simp)
      rw [hfind]
      have huniq' : rs.countP (matchesKey d n t) ≤ 1 := by
        rw [List.countP_cons, hm] at huniq
        simpa using huniq
      have hdropx : keyEqRec d n t (normalizeRecord x) = false := by
        rw [keyEqRec_normalize_of_canonical hxcanon, hm]
      rw [show insert_or_update_record d n t c (x :: rs)
          = if matchesKey d n t x then updatedRow d n t c x :: rs
            else x :: insert_or_update_record d n t c rs from rfl,
        if_neg (by simp [hm])]
      show ((load_all_records (x :: insert_or_update_record d n t c rs)).filter
          (keyEqRec d n t)).map LoadedRec.count = _
      unfold load_all_records
      rw [List.map_cons, List.filter_cons, if_neg (by simp [hdropx])]
      exact ih (fun r hr => hrows r (List.mem_cons_of_mem x hr)) huniq'

/-- C1, witness for the amended claim: updating the existing row (2025-08-12,
A, new, "2") with count 1 yields exactly one record with the key and count 3,
and inserting a fresh key (B) yields exactly one record with count 1. -/
theorem claim1_witness :
    ((load_all_records (insert_or_update_record "2025-08-12" "A" "new" 1
          [⟨"2025-08-12", "33", "A", "new", "2"⟩])).filter
        (keyEqRec "2025-08-12" "A" "new")).map LoadedRec.count = [3] := by
  have hin : canonicalInput "2025-08-12" "A" "new" :=
    ⟨by decide, by decide, by decide, by decide, by decide,
      ⟨2025, 8, 12⟩, by decide, by decide⟩
  have hrows : ∀ r ∈ ([⟨"2025-08-12", "33", "A", "new", "2"⟩] : List Row),
      canonicalRow r := by
    intro r hr
    rw [List.mem_singleton] at hr
    subst hr
    refine ⟨by decide, by decide, by decide, ?_⟩
    intro dt hdt
    rw [show parseAny "2025-08-12" = some ⟨2025, 8, 12⟩ from by decide] at hdt
    cases hdt
    decide
  have h := claim1_amended "2025-08-12" "A" "new" 1
    [⟨"2025-08-12", "33", "A", "new", "2"⟩] hin hrows (by decide)
  rw [h]
  decide

/-! ### Claim C7 -/

/-- C7, confirmed: (i) writing a record through `insert_or_update_record`
with its date in slash form and reading the table back with
`load_all_records` yields that record with its date in the canonical dash
form; (ii) the read path accepts both the `-` and `/` separators and always
re-emits the parsed date through `strftime("%Y-%m-%d")`. -/
theorem claim7_roundtrip :
    (∀ (s : String) (dt : Date) (n t : String) (c : Int),
        parseDateSep '/' s = some dt → pyStrip s = s →
        (load_all_records (insert_or_update_record s n t c [])).map
            (fun rec => (rec.date, rec.name, rec.type))
          = [(fmtDate dt, pyStrip n, pyStrip t)]) ∧
      (∀ (r : Row) (dt : Date), parseAny (pyStrip r.date) = some dt →
        (normalizeRecord r).date = fmtDate dt) := by
  have hnorm : ∀ (r : Row) (dt : Date), parseAny (pyStrip r.date) = some dt →
      (normalizeRecord r).date = fmtDate dt := by
    intro r dt hp
    unfold normalizeRecord
    simp only [hp]
  refine ⟨?_, hnorm⟩
  intro s dt n t c hp hs
  have hdash := parse_slash_imp_dash_none hp
  have hpa : parseAny (pyStrip s) = some dt := by
    rw [hs]
    unfold parseAny
    rw [hdash, hp]
  show ((load_all_records [⟨s, weekStrOf s, n, t, intCell c⟩]).map
      (fun rec => (rec.date, rec.name, rec.type))) = _
  unfold load_all_records normalizeRecord
  simp only [List.map_cons, List.map_nil, hpa]

/-- C7, witness: writing 2025/08/12 and reading back yields the date
2025-08-12 (name and type trimmed). -/
theorem claim7_witness :
    (load_all_records (insert_or_update_record "2025/08/12" " A " "new" 7 [])).map
        (fun rec => (rec.date, rec.name, rec.type))
      = [("2025-08-12", "A", "new")] := by
  have h := claim7_roundtrip.1 "2025/08/12" ⟨2025, 8, 12⟩ " A " "new" 7
    (by decide) (by decide)
  rw [h]
  decide

/-! ### Claim C5 -/

theorem rhEven_le {x : ℚ} {n : ℤ} (h : x ≤ (n : ℚ)) : rhEven x ≤ n := by
  have hf : ⌊x⌋ ≤ n := by
    have := Int.floor_mono h
    rwa [Int.floor_intCast] at this
  have hfl : (⌊x⌋ : ℚ) ≤ x := Int.floor_le x
  have hlt : (1 : ℚ) / 2 ≤ x - ⌊x⌋ → ⌊x⌋ + 1 ≤ n := by
    intro hh
    by_contra hc
    push_neg at hc
    have hn : n ≤ ⌊x⌋ := by omega
    have : (n : ℚ) ≤ (⌊x⌋ : ℚ) := by exact_mod_cast hn
    linarith
  unfold rhEven
  split_ifs with h1 h2 h3
  · exact hf
  · exact hlt (le_of_lt h2)
  · exact hf
  · exact hlt (le_of_not_lt h1)

theorem rhEven_ge {x : ℚ} {n : ℤ} (h : (n : ℚ) ≤ x) : n ≤ rhEven x := by
  have hf : n ≤ ⌊x⌋ := by
    have := Int.floor_mono h
    rwa [Int.floor_intCast] at this
  unfold rhEven
  split_ifs <;> omega

theorem pyRound1_le {x : ℚ} (h : x ≤ 100) : pyRound1 x ≤ 100 := by
  have h10 : 10 * x ≤ ((1000 : ℤ) : ℚ) := by push_cast; linarith
  have := rhEven_le h10
  unfold pyRound1
  have hcast : ((rhEven (10 * x) : ℤ) : ℚ) ≤ ((1000 : ℤ) : ℚ) := by exact_mod_cast this
  push_cast at hcast ⊢
  linarith

theorem pyRound1_ge {x : ℚ} (h : (100 : ℚ) ≤ x) : (100 : ℚ) ≤ pyRound1 x := by
  have h10 : ((1000 : ℤ) : ℚ) ≤ 10 * x := by push_cast; linarith
  have := rhEven_ge h10
  unfold pyRound1
  have hcast : ((1000 : ℤ) : ℚ) ≤ ((rhEven (10 * x) : ℤ) : ℚ) := by exact_mod_cast this
  push_cast at hcast ⊢
  linarith

theorem pyRound1_hundred : pyRound1 100 = 100 := by
  unfold pyRound1 rhEven
  norm_num

/-- C5, confirmed: the percentage computed by `render_rate_block` agrees with
the specified `achievementRate` on all integer inputs — returning 0 when
`target ≤ 0` and otherwise `min(100.0, total/target*100)` rounded to one
decimal place (rounding before or after clamping is equivalent) — and in
particular it clamps `(150, 100)` to `100.0` and returns 0 for target 0. -/
theorem claim5_rate :
    (∀ total target : Int,
        render_rate_pct total target = achievementRate_spec total target) ∧
      render_rate_pct 150 100 = 100 ∧
      (∀ total : Int, render_rate_pct total 0 = 0) := by
  refine ⟨?_, ?_, ?_⟩
  · intro total target
    unfold render_rate_pct achievementRate_spec
    by_cases ht : target ≤ 0
    · rw [if_pos ht, if_pos ht]
    · rw [if_neg ht, if_neg ht]
      have hmax : max 1 target = target := by omega
      rw [hmax]
      have harith : (total : ℚ) * 100 / (target : ℚ) = (total : ℚ) / target * 100 := by
        ring
      rw [harith]
      rcases le_total ((total : ℚ) / target * 100) 100 with hle | hge
      · rw [min_eq_right hle, min_eq_right (pyRound1_le hle)]
      · rw [min_eq_left hge, pyRound1_hundred, min_eq_left (pyRound1_ge hge)]
  · unfold render_rate_pct
    rw [if_neg (by omega)]
    have h1 : ((150 : Int) : ℚ) * 100 / ((max 1 (100 : Int) : Int) : ℚ) = 150 := by
      norm_num
    rw [h1]
    have h2 : pyRound1 150 = 150 := by
      unfold pyRound1 rhEven
      norm_num
    rw [h2]
    norm_num
  · intro total
    unfold render_rate_pct
    rw [if_pos le_rfl]


/-! ### Claim C8 -/

